import Mathlib

/-!
Shallow embedding of the treble.yo backend (src/api/server.js): the
moderation filter `containsBadWords`, the file-type validators built on
Node's `path.extname`, and the record-store handlers for search, upload
and like.  Strings are modelled as lists of characters restricted to the
ASCII behaviour of the JavaScript primitives involved; JavaScript regular
expressions built from literal text (the word-boundary pattern around a
blocked term, and the unanchored search pattern) are modelled by explicit
position scans, which is their semantics for pattern text free of regex
metacharacters.
-/

namespace Treble

/-- Word characters in the sense of the JavaScript regex class `\w`:
ASCII letters, digits and underscore. -/
def isWordChar (c : Char) : Bool :=
  (decide ('a' ≤ c) && decide (c ≤ 'z')) || (decide ('A' ≤ c) && decide (c ≤ 'Z')) ||
  (decide ('0' ≤ c) && decide (c ≤ '9')) || c == '_'

/-- Whitespace in the sense of the JavaScript regex class `\s` (ASCII part):
space, tab, line feed, carriage return, vertical tab, form feed. -/
def isSpaceChar (c : Char) : Bool :=
  c == ' ' || c == '\t' || c == '\n' || c == '\r' || c == Char.ofNat 11 || c == Char.ofNat 12

/-- The fixed punctuation set removed by `containsBadWords` when building the
cleaned variant of the input, from the regex character class
`[.,\/#!$%\^&\*;:{}=\-_`~()]` in server.js line 74. -/
def punctChars : List Char :=
  ['.', ',', '/', '#', '!', '$', '%', '^', '&', '*', ';', ':',
   Char.ofNat 123, Char.ofNat 125, '=', '-', '_', Char.ofNat 96, '~', '(', ')']

/-- Lowercasing a string, modelling `String.prototype.toLowerCase` on ASCII. -/
def toLowerStr (s : List Char) : List Char := s.map Char.toLower

/-- Deleting the fixed punctuation characters, modelling
`.replace(/[.,\/#!$%\^&\*;:{}=\-_`~()]/g, '')`. -/
def stripPunct (s : List Char) : List Char := s.filter (fun c => !(punctChars.contains c))

/-- Helper for `collapseWs`: the flag records whether the previous character
belonged to a whitespace run already replaced by a space. -/
def collapseWsAux : Bool → List Char → List Char
  | _, [] => []
  | inRun, c :: rest =>
    if isSpaceChar c then
      if inRun then collapseWsAux true rest
      else ' ' :: collapseWsAux true rest
    else c :: collapseWsAux false rest

/-- Collapsing every maximal run of whitespace to a single space, modelling
`.replace(/\s+/g, ' ')`. -/
def collapseWs (s : List Char) : List Char := collapseWsAux false s

/-- Removing leading and trailing whitespace, modelling `String.prototype.trim`. -/
def trimStr (s : List Char) : List Char :=
  ((s.dropWhile isSpaceChar).reverse.dropWhile isSpaceChar).reverse

/-- The cleaned variant of a lowered input built inside `containsBadWords`
(server.js lines 73-76): punctuation deleted, whitespace runs collapsed,
ends trimmed. -/
def cleanOf (lowerText : List Char) : List Char :=
  trimStr (collapseWs (stripPunct lowerText))

/-- Whether the character at position `i` of `s` is a word character;
positions outside the string count as non-word, as in regex `\b`. -/
def wordAt (s : List Char) (i : Nat) : Bool :=
  (s[i]?.map isWordChar).getD false

/-- The regex word-boundary assertion `\b` at position `i` of `s`: the
wordness of the characters on the two sides of the position differs. -/
def boundaryAt (s : List Char) (i : Nat) : Bool :=
  ((i != 0) && wordAt s (i - 1)) != wordAt s i

/-- Case-insensitive literal occurrence of `w` at position `i` of `s`: the
run of `s` starting at `i`, lowercased, equals `w` lowercased. -/
def matchAt (w s : List Char) (i : Nat) : Bool :=
  toLowerStr ((s.drop i).take w.length) == toLowerStr w

/-- One element of the regex patterns this program builds.  The patterns are
`'\\b' + term + '\\b'` and a bare search query, so every pattern is a plain
concatenation: each source character is one token, plus the two `\b`
assertions.  Supported atoms and assertions carry their JavaScript meaning:
a literal character (with the `i` flag), the `.` wildcard, the `$` and `^`
anchors (no `m` flag), and the `\b` word boundary. -/
inductive RTok where
  | lit (c : Char)
  | anyChar
  | endA
  | startA
  | wordB
deriving DecidableEq, Repr

/-- Line terminators that the JavaScript `.` wildcard does not match
(no `s` flag): LF, CR, U+2028, U+2029. -/
def lineTerminators : List Char := ['\n', '\r', Char.ofNat 8232, Char.ofNat 8233]

/-- Reading of one pattern-source character as a token.  Faithful to
JavaScript for characters that stand alone in a pattern: `.`, `$` and `^`
get their metacharacter meaning and every other supported character is a
literal.  Structural characters (backslash, quantifiers, groups, classes,
alternation) are outside the modelled fragment and are read as literals;
the theorems below restrict their term lists accordingly. -/
def tokOf (c : Char) : RTok :=
  if c = '.' then RTok.anyChar
  else if c = '$' then RTok.endA
  else if c = '^' then RTok.startA
  else RTok.lit c

/-- Running a concatenation of tokens against `s` from position `pos`,
with JavaScript semantics: assertions consume nothing, atoms consume one
character, literals compare case-insensitively (`i` flag).  The fragment
has no quantifiers or alternation, so matching is deterministic. -/
def matchTokens : List RTok → List Char → Nat → Bool
  | [], _, _ => true
  | RTok.wordB :: rest, s, pos => boundaryAt s pos && matchTokens rest s pos
  | RTok.startA :: rest, s, pos => pos == 0 && matchTokens rest s pos
  | RTok.endA :: rest, s, pos => pos == s.length && matchTokens rest s pos
  | RTok.anyChar :: rest, s, pos =>
    match s[pos]? with
    | none => false
    | some c => !(lineTerminators.contains c) && matchTokens rest s (pos + 1)
  | RTok.lit c :: rest, s, pos =>
    match s[pos]? with
    | none => false
    | some d => (d.toLower == c.toLower) && matchTokens rest s (pos + 1)

/-- The test `new RegExp('\\b' + w + '\\b', 'i').test(s)` of server.js
lines 84-87: some start position of `s` carries a match of the word-boundary
assertion, the term read as tokens, and the closing word boundary. -/
def jsWordTest (w s : List Char) : Bool :=
  (List.range (s.length + 1)).any fun i =>
    matchTokens (RTok.wordB :: (w.map tokOf ++ [RTok.wordB])) s i

/-- The test `new RegExp(query, 'i').test(s)` of server.js line 125: some
start position of `s` carries a match of the query read as tokens. -/
def jsSearchTest (q s : List Char) : Bool :=
  (List.range (s.length + 1)).any fun i => matchTokens (q.map tokOf) s i

/-- The JavaScript regex syntax characters.  A pattern-source string free of
them is matched entirely literally by the regex engine. -/
def regexSpecialChars : List Char :=
  ['\\', '^', '$', '.', '|', '?', '*', '+', '(', ')', '[', ']',
   Char.ofNat 123, Char.ofNat 125]

/-- Terms built only from characters the regex engine treats literally. -/
def plainTerm (w : List Char) : Bool :=
  w.all fun c => !(regexSpecialChars.contains c)

/-- The literal whole-word scan: the reading of the blocked-term test that
the specification text describes.  For terms satisfying `plainTerm` this
equals `jsWordTest` (proved below); for terms with regex metacharacters the
two differ, which is what refutes claims quantifying over all term lists. -/
def literalWordScan (w s : List Char) : Bool :=
  (List.range (s.length + 1)).any fun i =>
    boundaryAt s i && matchAt w s i && boundaryAt s (i + w.length)

/-- The moderation filter `containsBadWords` of server.js lines 68-89,
parameterised by the blocked-term list: empty text never matches; otherwise
each term is trimmed and lowercased, skipped when empty, and tested as a
case-insensitive whole-word regex against both the lowered input and its
cleaned variant. -/
def containsBadWords (badWords : List (List Char)) (text : List Char) : Bool :=
  if text.isEmpty then false
  else
    let lowerText := toLowerStr text
    let cleanText := cleanOf lowerText
    badWords.any fun word =>
      let wordLower := toLowerStr (trimStr word)
      if wordLower.isEmpty then false
      else jsWordTest wordLower lowerText || jsWordTest wordLower cleanText

/-- The last path component of `p`: trailing slashes are ignored and the
part after the last remaining slash is taken, as in Node's posix
`path.basename`. -/
def lastComponent (p : List Char) : List Char :=
  ((p.reverse.dropWhile (fun c => c == '/')).takeWhile (fun c => c != '/')).reverse

/-- Node's posix `path.extname`: the suffix of the last path component from
its last dot, except that a component with no dot, a component whose only
dot is its first character (a dotfile such as `.bashrc`), and the component
`..` have no extension. -/
def extname (p : List Char) : List Char :=
  let comp := lastComponent p
  let pre := comp.reverse.takeWhile (fun c => c != '.')
  if pre.length = comp.length then []
  else if pre.length + 1 = comp.length then []
  else if comp = ['.', '.'] then []
  else '.' :: pre.reverse

/-- The document extension allow-list of `isValidFileType` (server.js line 92). -/
def validExtensions : List (List Char) :=
  ['.', 'p', 'd', 'f'] :: ['.', 'd', 'o', 'c'] :: ['.', 'd', 'o', 'c', 'x'] ::
    ['.', 't', 'x', 't'] :: []

/-- The image extension allow-list for thumbnails (server.js line 174). -/
def validImageExtensions : List (List Char) :=
  ['.', 'w', 'e', 'b', 'p'] :: ['.', 'p', 'n', 'g'] :: ['.', 'j', 'p', 'e', 'g'] ::
    ['.', 'j', 'p', 'g'] :: []

/-- The validator `isValidFileType` of server.js lines 91-95: the lowercased
`path.extname` of the URL must be on the document allow-list. -/
def isValidFileType (url : List Char) : Bool :=
  validExtensions.contains (toLowerStr (extname url))

/-- The inline thumbnail validation of server.js lines 174-176: the
lowercased `path.extname` of the thumbnail URL must be on the image
allow-list. -/
def isValidImageType (url : List Char) : Bool :=
  validImageExtensions.contains (toLowerStr (extname url))

/-- A stored pattern record, following the Mongoose schema of server.js
lines 54-63; `dateUploaded` is an abstract creation timestamp and
`thumbnailUrl` is optional. -/
structure PatternRecord where
  patternUrl : List Char
  patternName : List Char
  authorName : List Char
  description : List Char
  slug : List Char
  dateUploaded : Nat
  thumbnailUrl : Option (List Char)
  likes : Nat
deriving DecidableEq, Repr

/-- The MongoDB collection, modelled as the list of stored records in
insertion order. -/
abbrev Store := List PatternRecord

/-- The query `Pattern.findOne({ slug })`: the first stored record with the
given slug. -/
def findOneBySlug (slug : List Char) (store : Store) : Option PatternRecord :=
  store.find? (fun r => r.slug == slug)

/-- The literal case-insensitive unanchored substring scan: the reading of
the search match that the specification text describes.  For queries
satisfying `plainTerm` this equals `jsSearchTest` (proved below). -/
def literalSubstrScan (q s : List Char) : Bool :=
  (List.range (s.length + 1)).any fun i => matchAt q s i

/-- The search filter of server.js lines 128-133: the query matches a record
when its regex matches its name, author or description. -/
def matchesQuery (q : List Char) (r : PatternRecord) : Bool :=
  jsSearchTest q r.patternName || jsSearchTest q r.authorName ||
    jsSearchTest q r.description

/-- Outcome of the `GET /search` handler. -/
inductive SearchOutcome where
  | missingQuery
  | results (records : List PatternRecord)
deriving DecidableEq, Repr

/-- The `GET /search` handler of server.js lines 117-141: an absent or empty
query is a 400 error; otherwise the matching records are returned sorted by
`dateUploaded` descending. -/
def searchHandler (q : List Char) (store : Store) : SearchOutcome :=
  if q.isEmpty then .missingQuery
  else .results ((store.filter (matchesQuery q)).mergeSort
    (fun a b => b.dateUploaded ≤ a.dateUploaded))

/-- Outcome of the `POST /upload` handler; the five non-`created` outcomes
are the HTTP 400 validation errors in the order the handler checks them. -/
inductive UploadOutcome where
  | missingFields
  | duplicateSlug
  | inappropriateLanguage
  | invalidFileType
  | invalidThumbnailType
  | created
deriving DecidableEq, Repr

/-- The JSON body of a `POST /upload` request; `thumbnailUrl = none` models
an absent field. -/
structure UploadRequest where
  patternUrl : List Char
  patternName : List Char
  authorName : List Char
  description : List Char
  slug : List Char
  thumbnailUrl : Option (List Char)
deriving DecidableEq, Repr

/-- The thumbnail gate of server.js lines 173-179: the check only runs when
`thumbnailUrl` is present and non-empty (an empty string is falsy in the
enclosing `if (thumbnailUrl)`). -/
def thumbnailRejected (tu : Option (List Char)) : Bool :=
  match tu with
  | none => false
  | some u => !u.isEmpty && !isValidImageType u

/-- The `POST /upload` handler of server.js lines 144-200, given the blocked
word list, the server clock value used for `dateUploaded`, the request and
the store.  Checks run in source order; each failure returns immediately
with the store unchanged; success appends the new record with zero likes. -/
def uploadHandler (badWords : List (List Char)) (now : Nat) (req : UploadRequest)
    (store : Store) : UploadOutcome × Store :=
  if req.patternUrl.isEmpty || req.patternName.isEmpty || req.authorName.isEmpty ||
      req.description.isEmpty || req.slug.isEmpty then
    (.missingFields, store)
  else if (findOneBySlug req.slug store).isSome then
    (.duplicateSlug, store)
  else if containsBadWords badWords req.patternUrl ||
      containsBadWords badWords req.patternName ||
      containsBadWords badWords req.authorName ||
      containsBadWords badWords req.description then
    (.inappropriateLanguage, store)
  else if !isValidFileType req.patternUrl then
    (.invalidFileType, store)
  else if thumbnailRejected req.thumbnailUrl then
    (.invalidThumbnailType, store)
  else
    (.created, store ++ [PatternRecord.mk req.patternUrl req.patternName req.authorName
      req.description req.slug now req.thumbnailUrl 0])

/-- Persisting the like increment: the first stored record with the given
slug (the one `findOne` returned) is saved back with one more like. -/
def bumpFirst (slug : List Char) : Store → Store
  | [] => []
  | r :: rest =>
    if r.slug == slug then { r with likes := r.likes + 1 } :: rest
    else r :: bumpFirst slug rest

/-- The `POST /like/:slug` handler of server.js lines 203-219: `none` models
the 404 outcome; otherwise the new like count is returned and the updated
record is persisted. -/
def likeHandler (slug : List Char) (store : Store) : Option (Nat × Store) :=
  match findOneBySlug slug store with
  | none => none
  | some r => some (r.likes + 1, bumpFirst slug store)

/-! Character-level facts about the ASCII lowercasing and word-character
classification used throughout the filter. -/

lemma char_toNat_inj {a b : Char} (h : a.toNat = b.toNat) : a = b :=
  Char.ext (UInt32.ext h)

lemma isWordChar_eq_toNat (c : Char) : isWordChar c =
    (decide (97 ≤ c.toNat ∧ c.toNat ≤ 122) || decide (65 ≤ c.toNat ∧ c.toNat ≤ 90) ||
     decide (48 ≤ c.toNat ∧ c.toNat ≤ 57) || decide (c.toNat = 95)) := by
  have h95 : (c == '_') = decide (c.toNat = 95) := by
    apply Bool.eq_iff_iff.mpr
    simp only [beq_iff_eq, decide_eq_true_eq]
    constructor
    · intro h; rw [h]; rfl
    · intro h; exact char_toNat_inj h
  rw [isWordChar, h95]
  apply Bool.eq_iff_iff.mpr
  simp only [Bool.or_eq_true, Bool.and_eq_true, decide_eq_true_eq,
    Char.le_def, UInt32.le_def, BitVec.le_def, Char.toNat, UInt32.toNat]
  tauto

lemma ofNat_toNat_of_lower (m : Nat) (h1 : 97 ≤ m) (h2 : m ≤ 122) :
    (Char.ofNat m).toNat = m := by
  interval_cases m <;> decide

lemma toNat_toLower (c : Char) :
    c.toLower.toNat = if 65 ≤ c.toNat ∧ c.toNat ≤ 90 then c.toNat + 32 else c.toNat := by
  unfold Char.toLower
  simp only [ge_iff_le]
  split
  · rename_i h
    rw [ofNat_toNat_of_lower] <;> omega
  · rfl

lemma isWordChar_toLower (c : Char) : isWordChar c.toLower = isWordChar c := by
  rw [isWordChar_eq_toNat, isWordChar_eq_toNat, toNat_toLower]
  apply Bool.eq_iff_iff.mpr
  simp only [Bool.or_eq_true, decide_eq_true_eq]
  split <;> omega

lemma toLower_toLower (c : Char) : c.toLower.toLower = c.toLower := by
  apply char_toNat_inj
  simp only [toNat_toLower]
  by_cases h : 65 ≤ c.toNat ∧ c.toNat ≤ 90
  · simp only [if_pos h]
    rw [if_neg (by omega)]
  · simp only [if_neg h]

lemma toLowerStr_toLowerStr (s : List Char) : toLowerStr (toLowerStr s) = toLowerStr s := by
  simp [toLowerStr, List.map_map, Function.comp, toLower_toLower]

/-! Relating the token-level regex model to the literal scans on
metacharacter-free pattern text. -/

lemma matchAt_nil (s : List Char) (pos : Nat) : matchAt [] s pos = true := by
  simp [matchAt, toLowerStr]

lemma matchAt_cons (c : Char) (w s : List Char) (pos : Nat) :
    matchAt (c :: w) s pos =
      (match s[pos]? with
        | none => false
        | some d => (d.toLower == c.toLower) && matchAt w s (pos + 1)) := by
  cases hp : s[pos]? with
  | none =>
    have hlen : s.length ≤ pos := by
      by_contra hlt
      push_neg at hlt
      rw [List.getElem?_eq_getElem hlt] at hp
      exact Option.noConfusion hp
    unfold matchAt
    rw [List.drop_eq_nil_of_le hlen]
    rfl
  | some d =>
    have hlt : pos < s.length := by
      by_contra hge
      push_neg at hge
      rw [List.getElem?_eq_none hge] at hp
      exact Option.noConfusion hp
    have hd : s[pos] = d := by
      rw [List.getElem?_eq_getElem hlt] at hp
      exact Option.some.inj hp
    unfold matchAt
    rw [List.drop_eq_getElem_cons hlt, hd]
    simp only [List.length_cons, List.take_succ_cons]
    rfl

lemma matchTokens_lits (w : List Char) (rest : List RTok) (s : List Char) (pos : Nat) :
    matchTokens (w.map RTok.lit ++ rest) s pos =
      (matchAt w s pos && matchTokens rest s (pos + w.length)) := by
  induction w generalizing pos with
  | nil => simp [matchAt_nil]
  | cons c w ih =>
    rw [List.map_cons, List.cons_append, matchTokens, matchAt_cons]
    cases hp : s[pos]? with
    | none => rfl
    | some d =>
      rw [ih (pos + 1)]
      have he : pos + 1 + w.length = pos + (c :: w).length := by
        simp only [List.length_cons]
        omega
      rw [he, Bool.and_assoc]

lemma tokOf_plain {w : List Char} (h : plainTerm w = true) :
    w.map tokOf = w.map RTok.lit := by
  induction w with
  | nil => rfl
  | cons c cs ih =>
    rw [plainTerm, List.all_cons, Bool.and_eq_true] at h
    have h1 : regexSpecialChars.contains c = false := by
      rw [← Bool.not_eq_true' (regexSpecialChars.contains c)]
      exact h.1
    have hdot : ¬ c = '.' := by
      intro he; subst he; exact absurd h1 (by decide)
    have hdollar : ¬ c = '$' := by
      intro he; subst he; exact absurd h1 (by decide)
    have hcaret : ¬ c = '^' := by
      intro he; subst he; exact absurd h1 (by decide)
    rw [List.map_cons, List.map_cons, ih (by rw [plainTerm]; exact h.2)]
    rw [tokOf, if_neg hdot, if_neg hdollar, if_neg hcaret]

lemma jsWordTest_plain {w : List Char} (h : plainTerm w = true) (s : List Char) :
    jsWordTest w s = literalWordScan w s := by
  unfold jsWordTest literalWordScan
  congr 1
  funext i
  rw [tokOf_plain h, matchTokens, matchTokens_lits, matchTokens, matchTokens]
  rw [Bool.and_true, Bool.and_assoc]

lemma jsSearchTest_plain {q : List Char} (h : plainTerm q = true) (s : List Char) :
    jsSearchTest q s = literalSubstrScan q s := by
  unfold jsSearchTest literalSubstrScan
  congr 1
  funext i
  rw [tokOf_plain h, ← List.append_nil (q.map RTok.lit), matchTokens_lits, matchTokens]
  rw [Bool.and_true]

/-! Declarative counterpart of the literal whole-word scan. -/

/-- Declarative literal whole-word occurrence: some position carries a word
boundary, a case-insensitive literal occurrence of `w`, and a closing word
boundary.  This is the reading the specification's claims use; it agrees
with the program's regex test exactly on `plainTerm` terms. -/
def WholeWordMatch (w s : List Char) : Prop :=
  ∃ i, boundaryAt s i = true ∧ matchAt w s i = true ∧ boundaryAt s (i + w.length) = true

lemma wordAt_eq_false_of_le {s : List Char} {i : Nat} (h : s.length ≤ i) :
    wordAt s i = false := by
  simp [wordAt, List.getElem?_eq_none h]

lemma le_length_of_boundaryAt {s : List Char} {i : Nat} (h : boundaryAt s i = true) :
    i ≤ s.length := by
  by_contra hlt
  push_neg at hlt
  have h1 : wordAt s i = false := wordAt_eq_false_of_le (by omega)
  have h2 : wordAt s (i - 1) = false := wordAt_eq_false_of_le (by omega)
  simp [boundaryAt, h1, h2] at h

lemma literalWordScan_iff (w s : List Char) :
    literalWordScan w s = true ↔ WholeWordMatch w s := by
  unfold literalWordScan WholeWordMatch
  rw [List.any_eq_true]
  constructor
  · rintro ⟨i, _, hi⟩
    simp only [Bool.and_eq_true] at hi
    exact ⟨i, hi.1.1, hi.1.2, hi.2⟩
  · rintro ⟨i, h1, h2, h3⟩
    refine ⟨i, List.mem_range.mpr ?_, by simp [h1, h2, h3]⟩
    have := le_length_of_boundaryAt h1
    omega

/-- Normalisation the filter applies to each blocked-list entry:
`word.trim().toLowerCase()`. -/
def normTerm (e : List Char) : List Char := toLowerStr (trimStr e)

/-- Master characterisation of the moderation filter: it answers true exactly
when the text is non-empty and some blocked-list entry, once trimmed and
lowercased, is non-empty and has a regex word test succeed on the lowered
text or on its cleaned variant. -/
lemma containsBadWords_iff (badWords : List (List Char)) (text : List Char) :
    containsBadWords badWords text = true ↔
      (text ≠ [] ∧ ∃ e ∈ badWords, normTerm e ≠ [] ∧
        (jsWordTest (normTerm e) (toLowerStr text) = true ∨
         jsWordTest (normTerm e) (cleanOf (toLowerStr text)) = true)) := by
  unfold containsBadWords
  by_cases ht : text.isEmpty
  · simp [ht, List.isEmpty_iff.mp ht]
  · rw [if_neg ht]
    rw [List.any_eq_true]
    constructor
    · rintro ⟨e, he, hval⟩
      by_cases hn : (normTerm e).isEmpty
      · simp only [normTerm] at hn
        simp [hn] at hval
      · simp only [normTerm] at hn
        rw [if_neg hn, Bool.or_eq_true] at hval
        refine ⟨by simpa [List.isEmpty_iff] using ht, e, he, ?_, hval⟩
        simpa [normTerm, List.isEmpty_iff] using hn
    · rintro ⟨-, e, he, hn, hmatch⟩
      refine ⟨e, he, ?_⟩
      have hn' : (toLowerStr (trimStr e)).isEmpty = false := by
        simpa [normTerm, List.isEmpty_iff] using hn
      simp only [hn', Bool.false_eq_true, if_false, Bool.or_eq_true]
      simpa [normTerm] using hmatch

/-- Declarative statement of the moderation filter contract, following the
specification text: the text is non-empty and some blocked term, after
trimming and lowercasing and unless empty, has a case-insensitive
whole-word, word-boundary-anchored match in the lowered input or in the
variant with the fixed punctuation deleted, whitespace runs collapsed and
ends trimmed. -/
def ContainsBlockedTermSpec (badWords : List (List Char)) (text : List Char) : Prop :=
  text ≠ [] ∧ ∃ e ∈ badWords, normTerm e ≠ [] ∧
    (WholeWordMatch (normTerm e) (toLowerStr text) ∨
     WholeWordMatch (normTerm e) (cleanOf (toLowerStr text)))

/-- C1 counterexample: for the blocked-term list `["a$$"]` and the text
`coca a`, the built regex `\ba$$\b` matches (`$` is an end anchor), so the
filter answers true, while no whole-word literal occurrence of `a$$` exists
in either variant, so the claim's characterisation says false. -/
theorem c1_counterexample :
    containsBadWords [['a', '$', '$']] ['c', 'o', 'c', 'a', ' ', 'a'] = true ∧
      ¬ ContainsBlockedTermSpec [['a', '$', '$']] ['c', 'o', 'c', 'a', ' ', 'a'] := by
  refine ⟨by decide, ?_⟩
  rintro ⟨-, e, he, -, hor⟩
  rw [List.mem_singleton] at he
  subst he
  rcases hor with h | h
  · rw [← literalWordScan_iff] at h
    exact absurd h (by decide)
  · rw [← literalWordScan_iff] at h
    exact absurd h (by decide)

/-- C1 as amended, restricted to blocked-term lists whose trimmed and
lowercased terms are free of regex metacharacters (for such terms the
built regex matches the term literally): `containsBlockedTerm` returns
false on empty text and otherwise returns true exactly when some blocked
term, trimmed and lowercased and skipped if empty, matches as a
case-insensitive whole word with word boundaries on both sides in the
lowered input or in its punctuation-stripped, whitespace-collapsed,
trimmed variant. -/
theorem c1_moderation_filter (badWords : List (List Char)) (text : List Char)
    (hplain : ∀ e ∈ badWords, plainTerm (normTerm e) = true) :
    containsBadWords badWords [] = false ∧
      (containsBadWords badWords text = true ↔ ContainsBlockedTermSpec badWords text) := by
  refine ⟨by simp [containsBadWords], ?_⟩
  rw [containsBadWords_iff]
  unfold ContainsBlockedTermSpec
  constructor
  · rintro ⟨ht, e, he, hn, hor⟩
    refine ⟨ht, e, he, hn, ?_⟩
    rw [jsWordTest_plain (hplain e he), jsWordTest_plain (hplain e he)] at hor
    rcases hor with h | h
    · exact Or.inl (literalWordScan_iff _ _ |>.mp h)
    · exact Or.inr (literalWordScan_iff _ _ |>.mp h)
  · rintro ⟨ht, e, he, hn, hor⟩
    refine ⟨ht, e, he, hn, ?_⟩
    rw [jsWordTest_plain (hplain e he), jsWordTest_plain (hplain e he)]
    rcases hor with h | h
    · exact Or.inl (literalWordScan_iff _ _ |>.mpr h)
    · exact Or.inr (literalWordScan_iff _ _ |>.mpr h)

theorem c1_witness :
    (∀ e ∈ [['b', 'a', 'd']], plainTerm (normTerm e) = true) ∧
      containsBadWords [['b', 'a', 'd']] [] = false ∧
      (containsBadWords [['b', 'a', 'd']] ['a', ' ', 'b', 'a', 'd'] = true ↔
        ContainsBlockedTermSpec [['b', 'a', 'd']] ['a', ' ', 'b', 'a', 'd']) :=
  ⟨by decide, c1_moderation_filter [['b', 'a', 'd']] ['a', ' ', 'b', 'a', 'd'] (by decide)⟩

/-- C8: the moderation filter is invariant under any change of letter
capitalization of the input: two texts with the same lowercasing get the
same answer. -/
theorem c8_case_insensitive (badWords : List (List Char)) (t1 t2 : List Char)
    (h : toLowerStr t1 = toLowerStr t2) :
    containsBadWords badWords t1 = containsBadWords badWords t2 := by
  have hlen : t1.length = t2.length := by
    have hl := congrArg List.length h
    simpa [toLowerStr] using hl
  have hempty : t1.isEmpty = t2.isEmpty := by
    apply Bool.eq_iff_iff.mpr
    rw [List.isEmpty_iff, List.isEmpty_iff, ← List.length_eq_zero, ← List.length_eq_zero, hlen]
  unfold containsBadWords
  rw [hempty, h]

theorem c8_witness :
    toLowerStr ("BaD day".toList) = toLowerStr ("bAd DAY".toList) ∧
      containsBadWords ["bad".toList] ("BaD day".toList) =
        containsBadWords ["bad".toList] ("bAd DAY".toList) :=
  ⟨by decide, c8_case_insensitive ["bad".toList] _ _ (by decide)⟩

lemma uploadHandler_cases (badWords : List (List Char)) (now : Nat) (req : UploadRequest)
    (store : Store) :
    (uploadHandler badWords now req store).1 = UploadOutcome.created ∨
      (uploadHandler badWords now req store).2 = store := by
  unfold uploadHandler
  repeat' split
  all_goals simp

/-- C7: whenever upload validation fails, the handler returns before any
write and the store is unchanged. -/
theorem c7_no_partial_writes (badWords : List (List Char)) (now : Nat) (req : UploadRequest)
    (store : Store) (h : (uploadHandler badWords now req store).1 ≠ UploadOutcome.created) :
    (uploadHandler badWords now req store).2 = store :=
  (uploadHandler_cases badWords now req store).resolve_left h

theorem c7_witness :
    (uploadHandler [] 0 (UploadRequest.mk [] [] [] [] [] none) []).1 ≠
        UploadOutcome.created ∧
      (uploadHandler [] 0 (UploadRequest.mk [] [] [] [] [] none) []).2 = [] :=
  ⟨by decide, c7_no_partial_writes [] 0 (UploadRequest.mk [] [] [] [] [] none) [] (by decide)⟩

/-- C10: an empty string in any of the five required fields is treated as
missing: the request is rejected with the missing-field error, before any
other check, and the store is unchanged. -/
theorem c10_empty_required_field (badWords : List (List Char)) (now : Nat)
    (req : UploadRequest) (store : Store)
    (h : req.patternUrl = [] ∨ req.patternName = [] ∨ req.authorName = [] ∨
      req.description = [] ∨ req.slug = []) :
    uploadHandler badWords now req store = (UploadOutcome.missingFields, store) := by
  have hc : (req.patternUrl.isEmpty || req.patternName.isEmpty || req.authorName.isEmpty ||
      req.description.isEmpty || req.slug.isEmpty) = true := by
    simp only [Bool.or_eq_true, List.isEmpty_iff]
    tauto
  unfold uploadHandler
  rw [if_pos hc]

theorem c10_witness :
    (let req := UploadRequest.mk ("a.pdf".toList) [] ("au".toList) ("d".toList) ("s1".toList) none;
     (req.patternUrl = [] ∨ req.patternName = [] ∨ req.authorName = [] ∨
       req.description = [] ∨ req.slug = []) ∧
       uploadHandler [] 7 req [] = (UploadOutcome.missingFields, [])) :=
  ⟨by decide, c10_empty_required_field [] 7 _ [] (by decide)⟩

lemma requiredFields_pass {req : UploadRequest}
    (h1 : req.patternUrl ≠ []) (h2 : req.patternName ≠ []) (h3 : req.authorName ≠ [])
    (h4 : req.description ≠ []) (h5 : req.slug ≠ []) :
    (req.patternUrl.isEmpty || req.patternName.isEmpty || req.authorName.isEmpty ||
      req.description.isEmpty || req.slug.isEmpty) = false := by
  simp only [Bool.or_eq_false_iff, List.isEmpty_eq_false]
  exact ⟨⟨⟨⟨h1, h2⟩, h3⟩, h4⟩, h5⟩

/-- C5 counterexample: a create request whose slug duplicates a stored
record but whose description is empty is rejected with the missing-field
error, not the duplicate-slug error. -/
theorem c5_counterexample :
    (let stored := PatternRecord.mk ("a.pdf".toList) ("Highland".toList) ("A".toList)
       ("tune".toList) ("s1".toList) 0 none 0;
     let req := UploadRequest.mk ("a.pdf".toList) ("Highland".toList) ("A".toList) []
       ("s1".toList) none;
     req.slug = stored.slug ∧
       uploadHandler [] 1 req [stored] = (UploadOutcome.missingFields, [stored]) ∧
       UploadOutcome.missingFields ≠ UploadOutcome.duplicateSlug) := by
  decide

/-- C5 as amended: a create request that passes the required-field check and
whose slug equals the slug of a stored record is rejected with the
duplicate-slug error regardless of the other fields, and the store is
unchanged. -/
theorem c5_duplicate_slug (badWords : List (List Char)) (now : Nat) (req : UploadRequest)
    (store : Store)
    (h1 : req.patternUrl ≠ []) (h2 : req.patternName ≠ []) (h3 : req.authorName ≠ [])
    (h4 : req.description ≠ []) (h5 : req.slug ≠ [])
    (hdup : ∃ r ∈ store, r.slug = req.slug) :
    uploadHandler badWords now req store = (UploadOutcome.duplicateSlug, store) := by
  have hc1 := requiredFields_pass h1 h2 h3 h4 h5
  have hc2 : (findOneBySlug req.slug store).isSome = true := by
    rw [findOneBySlug, List.find?_isSome]
    obtain ⟨r, hr, hs⟩ := hdup
    exact ⟨r, hr, by simp [hs]⟩
  unfold uploadHandler
  simp [hc1, hc2]

theorem c5_witness :
    (let stored := PatternRecord.mk ("a.pdf".toList) ("Highland".toList) ("A".toList)
       ("tune".toList) ("s1".toList) 0 none 0;
     let req := UploadRequest.mk ("b.txt".toList) ("Other".toList) ("B".toList)
       ("different".toList) ("s1".toList) none;
     uploadHandler [] 1 req [stored] = (UploadOutcome.duplicateSlug, [stored])) :=
  c5_duplicate_slug [] 1 _ _ (by decide) (by decide) (by decide) (by decide) (by decide)
    ⟨_, List.mem_singleton.mpr rfl, by decide⟩

/-- C9 counterexample: a create request whose patternUrl contains a blocked
term while the three text fields are clean is not always rejected with the
blocked-term error: an empty patternName makes the missing-field check fire
first. -/
theorem c9_counterexample :
    (let req := UploadRequest.mk ("bad.pdf".toList) [] ("ann".toList) ("desc".toList)
       ("s1".toList) none;
     containsBadWords ["bad".toList] req.patternUrl = true ∧
       containsBadWords ["bad".toList] req.patternName = false ∧
       containsBadWords ["bad".toList] req.authorName = false ∧
       containsBadWords ["bad".toList] req.description = false ∧
       uploadHandler ["bad".toList] 0 req [] = (UploadOutcome.missingFields, []) ∧
       UploadOutcome.missingFields ≠ UploadOutcome.inappropriateLanguage) := by
  decide

/-- C9 as amended: a create request that passes the required-field and
duplicate-slug checks and whose patternUrl contains a blocked term is
rejected with the blocked-term error, whatever the other text fields
contain. -/
theorem c9_url_moderated (badWords : List (List Char)) (now : Nat) (req : UploadRequest)
    (store : Store)
    (h1 : req.patternUrl ≠ []) (h2 : req.patternName ≠ []) (h3 : req.authorName ≠ [])
    (h4 : req.description ≠ []) (h5 : req.slug ≠ [])
    (hfresh : findOneBySlug req.slug store = none)
    (hurl : containsBadWords badWords req.patternUrl = true) :
    uploadHandler badWords now req store = (UploadOutcome.inappropriateLanguage, store) := by
  have hc1 := requiredFields_pass h1 h2 h3 h4 h5
  unfold uploadHandler
  simp [hc1, hfresh, hurl]

theorem c9_witness :
    (let req := UploadRequest.mk ("bad.pdf".toList) ("name".toList) ("ann".toList)
       ("desc".toList) ("s1".toList) none;
     containsBadWords ["bad".toList] req.patternName = false ∧
       containsBadWords ["bad".toList] req.authorName = false ∧
       containsBadWords ["bad".toList] req.description = false ∧
       uploadHandler ["bad".toList] 0 req [] = (UploadOutcome.inappropriateLanguage, [])) :=
  ⟨by decide, by decide, by decide,
    c9_url_moderated ["bad".toList] 0 _ [] (by decide) (by decide) (by decide) (by decide)
      (by decide) (by decide) (by decide)⟩

lemma findOne_bumpFirst {slug : List Char} {store : Store} {r : PatternRecord}
    (h : findOneBySlug slug store = some r) :
    findOneBySlug slug (bumpFirst slug store) = some { r with likes := r.likes + 1 } := by
  induction store with
  | nil => simp [findOneBySlug] at h
  | cons a rest ih =>
    by_cases ha : (a.slug == slug) = true
    · simp only [findOneBySlug, List.find?_cons, ha] at h
      injection h with h
      subst h
      simp only [bumpFirst, if_pos ha]
      simp [findOneBySlug, List.find?_cons, ha]
    · rw [Bool.not_eq_true] at ha
      simp only [findOneBySlug, List.find?_cons, ha] at h
      have hrec := ih h
      simp only [bumpFirst, ha, Bool.false_eq_true, if_false]
      simp only [findOneBySlug, List.find?_cons, ha] at hrec ⊢
      exact hrec

/-- C6: liking a stored record returns its like count plus one and persists
it; an unknown slug gives the not-found outcome; and a second sequential
like on the same record yields the count plus two. -/
theorem c6_increment_like (slug : List Char) (store : Store) :
    (findOneBySlug slug store = none → likeHandler slug store = none) ∧
    (∀ r : PatternRecord, findOneBySlug slug store = some r →
      likeHandler slug store = some (r.likes + 1, bumpFirst slug store) ∧
      findOneBySlug slug (bumpFirst slug store) = some { r with likes := r.likes + 1 } ∧
      likeHandler slug (bumpFirst slug store) =
        some (r.likes + 1 + 1, bumpFirst slug (bumpFirst slug store))) := by
  constructor
  · intro h
    simp [likeHandler, h]
  · intro r h
    have h1 := findOne_bumpFirst h
    refine ⟨by simp [likeHandler, h], h1, ?_⟩
    simp [likeHandler, h1]

theorem c6_witness :
    (let stored := PatternRecord.mk ("a.pdf".toList) ("Highland".toList) ("A".toList)
       ("tune".toList) ("s1".toList) 0 none 5;
     findOneBySlug ("s1".toList) [stored] = some stored ∧
       likeHandler ("s1".toList) [stored] = some (5 + 1, bumpFirst ("s1".toList) [stored])) :=
  ⟨by decide,
    ((c6_increment_like ("s1".toList)
        [PatternRecord.mk ("a.pdf".toList) ("Highland".toList) ("A".toList)
          ("tune".toList) ("s1".toList) 0 none 5]).2
      (PatternRecord.mk ("a.pdf".toList) ("Highland".toList) ("A".toList)
        ("tune".toList) ("s1".toList) 0 none 5) (by decide)).1⟩

/-- Declarative case-insensitive substring occurrence: some position of `s`
starts a run whose lowercasing equals the lowercased query. -/
def CiSubstring (q s : List Char) : Prop :=
  ∃ i, toLowerStr ((s.drop i).take q.length) = toLowerStr q

lemma literalSubstrScan_iff (q s : List Char) :
    literalSubstrScan q s = true ↔ CiSubstring q s := by
  unfold literalSubstrScan CiSubstring matchAt
  rw [List.any_eq_true]
  constructor
  · rintro ⟨i, -, hi⟩
    exact ⟨i, by simpa using hi⟩
  · rintro ⟨i, hi⟩
    rcases Nat.lt_or_ge i (s.length + 1) with hlt | hge
    · exact ⟨i, List.mem_range.mpr hlt, by simpa using hi⟩
    · rw [List.drop_eq_nil_of_le (by omega)] at hi
      simp only [List.take_nil, toLowerStr, List.map_nil] at hi
      refine ⟨0, List.mem_range.mpr (by omega), ?_⟩
      have hq : q = [] := List.map_eq_nil_iff.mp hi.symm
      subst hq
      simp [toLowerStr]

lemma searchSorted (l : List PatternRecord) :
    List.Pairwise (fun a b : PatternRecord => b.dateUploaded ≤ a.dateUploaded)
      (l.mergeSort fun a b => b.dateUploaded ≤ a.dateUploaded) := by
  have h1 : ∀ a b c : PatternRecord,
      decide (b.dateUploaded ≤ a.dateUploaded) = true →
      decide (c.dateUploaded ≤ b.dateUploaded) = true →
      decide (c.dateUploaded ≤ a.dateUploaded) = true := by
    intro a b c hab hbc
    simp only [decide_eq_true_eq] at *
    omega
  have h2 : ∀ a b : PatternRecord,
      (decide (b.dateUploaded ≤ a.dateUploaded) || decide (a.dateUploaded ≤ b.dateUploaded)) =
        true := by
    intro a b
    simp only [Bool.or_eq_true, decide_eq_true_eq]
    omega
  have h := List.sorted_mergeSort h1 h2 l
  exact h.imp (fun hab => by simpa using hab)

/-- Concrete record whose name matches the query `mr.` only through the
`.` wildcard. -/
def mrsRecord : PatternRecord :=
  PatternRecord.mk ("a.pdf".toList) ("Mrs Smith".toList) ("A".toList) ("tune".toList)
    ("s2".toList) 0 none 0

/-- C3 counterexample: for the query `mr.`, the program's regex treats `.`
as a wildcard, so a record whose name is `Mrs Smith` is returned although
none of its three text fields contains `mr.` as a literal substring. -/
theorem c3_counterexample :
    searchHandler ("mr.".toList) [mrsRecord] = SearchOutcome.results [mrsRecord] ∧
      ¬ CiSubstring ("mr.".toList) mrsRecord.patternName ∧
      ¬ CiSubstring ("mr.".toList) mrsRecord.authorName ∧
      ¬ CiSubstring ("mr.".toList) mrsRecord.description := by
  refine ⟨?_, ?_, ?_, ?_⟩
  · unfold searchHandler
    rw [if_neg (by decide)]
    have hf : List.filter (matchesQuery ("mr.".toList)) [mrsRecord] = [mrsRecord] := by
      decide
    rw [hf, List.mergeSort_singleton]
  · intro h
    rw [← literalSubstrScan_iff] at h
    exact absurd h (by decide)
  · intro h
    rw [← literalSubstrScan_iff] at h
    exact absurd h (by decide)
  · intro h
    rw [← literalSubstrScan_iff] at h
    exact absurd h (by decide)

/-- C3 as amended, restricted to queries free of regex metacharacters (for
which the compiled regex is a literal matcher and can never be a syntax
error): the search handler rejects an empty query, and on a non-empty query
returns exactly the records whose name, author or description contains the
query as a case-insensitive substring, in an order sorted descending by
creation time. -/
theorem c3_search (q : List Char) (store : Store) (hq : q ≠ [])
    (hplain : plainTerm q = true) :
    searchHandler [] store = SearchOutcome.missingQuery ∧
    ∃ rs, searchHandler q store = SearchOutcome.results rs ∧
      rs.Perm (store.filter (matchesQuery q)) ∧
      (∀ r : PatternRecord, matchesQuery q r = true ↔
        (CiSubstring q r.patternName ∨ CiSubstring q r.authorName ∨
          CiSubstring q r.description)) ∧
      List.Pairwise (fun a b : PatternRecord => b.dateUploaded ≤ a.dateUploaded) rs := by
  refine ⟨by simp [searchHandler], ?_⟩
  refine ⟨(store.filter (matchesQuery q)).mergeSort
    (fun a b => b.dateUploaded ≤ a.dateUploaded), ?_, ?_, ?_, ?_⟩
  · unfold searchHandler
    rw [if_neg (by simpa [List.isEmpty_iff] using hq)]
  · exact List.mergeSort_perm _ _
  · intro r
    simp only [matchesQuery, Bool.or_eq_true, jsSearchTest_plain hplain, literalSubstrScan_iff]
    tauto
  · exact searchSorted _

/-- Concrete record used by the search witness. -/
def kiltRecord : PatternRecord :=
  PatternRecord.mk ("a.pdf".toList) ("My KILTS".toList) ("A".toList) ("tune".toList)
    ("s1".toList) 0 none 0

theorem c3_witness :
    ("kilt".toList ≠ ([] : List Char)) ∧ plainTerm ("kilt".toList) = true ∧
      searchHandler [] [kiltRecord] = SearchOutcome.missingQuery ∧
      matchesQuery ("kilt".toList) kiltRecord = true ∧
      searchHandler ("kilt".toList) [kiltRecord] = SearchOutcome.results [kiltRecord] :=
  ⟨by decide, by decide,
    (c3_search ("kilt".toList) [kiltRecord] (by decide) (by decide)).1, by decide, by
    unfold searchHandler
    rw [if_neg (by decide)]
    have hf : List.filter (matchesQuery ("kilt".toList)) [kiltRecord] = [kiltRecord] := by
      decide
    rw [hf, List.mergeSort_singleton]⟩

/-- Claim-side reading of C4: the extension of a URL is the substring from
its final dot, wherever that dot is. -/
def suffixFromLastDot (url : List Char) : Option (List Char) :=
  if url.contains '.' then
    some ('.' :: (url.reverse.takeWhile (fun c => c != '.')).reverse)
  else none

/-- Claim-side reading of C4 for documents: accept exactly when the
substring from the final dot, lowercased, is on the document allow-list. -/
def claimAcceptsDoc (url : List Char) : Bool :=
  match suffixFromLastDot url with
  | none => false
  | some e => validExtensions.contains (toLowerStr e)

/-- C4 counterexample: for the URL `.pdf` the substring from the final dot
is `.pdf`, which the claim accepts, but `path.extname` treats a leading-dot
name as having no extension, so the code rejects it. -/
theorem c4_counterexample :
    claimAcceptsDoc (".pdf".toList) = true ∧ isValidFileType (".pdf".toList) = false := by
  decide

/-- C4 as amended: document and thumbnail URLs are accepted exactly when
the lowercased `path.extname` of the URL, the extension of the last path
segment under Node's dotfile rules, is on the corresponding allow-list. -/
theorem c4_extension_allowlist (url : List Char) :
    (isValidFileType url = true ↔ toLowerStr (extname url) ∈ validExtensions) ∧
      (isValidImageType url = true ↔ toLowerStr (extname url) ∈ validImageExtensions) := by
  constructor
  · rw [isValidFileType]
    exact List.elem_iff
  · rw [isValidImageType]
    exact List.elem_iff

/-- Terms whose first and last characters are word characters; for such
terms the regex word boundaries coincide with the specification's reading
of a standalone word. -/
def wordEdged (w : List Char) : Bool := wordAt w 0 && wordAt w (w.length - 1)

/-- Case-insensitive standalone-word occurrence of `w` in `s` in the sense
of the specification: an occurrence whose neighbours on both sides are
absent or non-word characters. -/
def StandaloneOccIn (w s : List Char) : Prop :=
  ∃ i, toLowerStr ((s.drop i).take w.length) = toLowerStr w ∧
    (i = 0 ∨ ∃ c, s[i - 1]? = some c ∧ isWordChar c = false) ∧
    (s[i + w.length]? = none ∨ ∃ c, s[i + w.length]? = some c ∧ isWordChar c = false)

lemma slice_length {w s : List Char} {i : Nat}
    (h : toLowerStr ((s.drop i).take w.length) = toLowerStr w) (hw : w ≠ []) :
    i + w.length ≤ s.length := by
  have hl := congrArg List.length h
  simp only [toLowerStr, List.length_map, List.length_take, List.length_drop] at hl
  have hw2 : 0 < w.length := List.length_pos.mpr hw
  omega

lemma slice_char {w s : List Char} {i : Nat} (j : Nat)
    (h : toLowerStr ((s.drop i).take w.length) = toLowerStr w) (hj : j < w.length) :
    s[i + j]?.map Char.toLower = w[j]?.map Char.toLower := by
  have hc := congrArg (fun l => l[j]?) h
  simp only [toLowerStr, List.getElem?_map, List.getElem?_take] at hc
  rw [if_pos hj] at hc
  rw [List.getElem?_drop] at hc
  exact hc

lemma wordAt_slice {w s : List Char} {i : Nat} (j : Nat)
    (h : toLowerStr ((s.drop i).take w.length) = toLowerStr w) (hj : j < w.length) :
    wordAt s (i + j) = wordAt w j := by
  have hc := slice_char j h hj
  rw [List.getElem?_eq_getElem hj, Option.map_some'] at hc
  obtain ⟨c, hcs, hlow⟩ := Option.map_eq_some'.mp hc
  rw [wordAt, hcs, wordAt, List.getElem?_eq_getElem hj]
  simp only [Option.map_some', Option.getD_some]
  rw [← isWordChar_toLower c, hlow, isWordChar_toLower]

lemma exists_nonword_of_wordAt_false {s : List Char} {k : Nat} (hk : k < s.length)
    (h : wordAt s k = false) :
    ∃ c, s[k]? = some c ∧ isWordChar c = false := by
  refine ⟨s[k], List.getElem?_eq_getElem hk, ?_⟩
  rw [wordAt, List.getElem?_eq_getElem hk] at h
  simpa using h

lemma wholeWordMatch_iff_standalone {w s : List Char} (hw : w ≠ [])
    (hedge : wordEdged w = true) :
    WholeWordMatch w s ↔ StandaloneOccIn w s := by
  have hwpos : 0 < w.length := List.length_pos.mpr hw
  rw [wordEdged, Bool.and_eq_true] at hedge
  constructor
  · rintro ⟨i, hb1, hm, hb2⟩
    rw [matchAt, beq_iff_eq] at hm
    have hlen := slice_length hm hw
    have hW0 : wordAt s i = true := by
      have h0 := (wordAt_slice 0 hm hwpos).trans hedge.1
      simpa using h0
    have hWlast : wordAt s (i + w.length - 1) = true := by
      have h2 := (wordAt_slice (w.length - 1) hm (by omega)).trans hedge.2
      have he : i + (w.length - 1) = i + w.length - 1 := by omega
      rwa [he] at h2
    refine ⟨i, hm, ?_, ?_⟩
    · rw [boundaryAt, hW0, bne_iff_ne] at hb1
      have hfalse : ((i != 0) && wordAt s (i - 1)) = false := by
        cases hA : ((i != 0) && wordAt s (i - 1))
        · rfl
        · exact absurd hA hb1
      by_cases hi0 : i = 0
      · exact Or.inl hi0
      · right
        have hne : (i != 0) = true := by rw [bne_iff_ne]; exact hi0
        rw [hne, Bool.true_and] at hfalse
        exact exists_nonword_of_wordAt_false (by omega) hfalse
    · rw [boundaryAt, bne_iff_ne] at hb2
      have hne0 : ((i + w.length) != 0) = true := by rw [bne_iff_ne]; omega
      rw [hne0, Bool.true_and, hWlast] at hb2
      have hafter : wordAt s (i + w.length) = false := by
        cases hA : wordAt s (i + w.length)
        · rfl
        · exact absurd hA.symm (by simpa using hb2)
      by_cases hend : i + w.length < s.length
      · exact Or.inr (exists_nonword_of_wordAt_false hend hafter)
      · exact Or.inl (List.getElem?_eq_none (by omega))
  · rintro ⟨i, hsl, hleft, hright⟩
    have hlen := slice_length hsl hw
    have hW0 : wordAt s i = true := by
      have h0 := (wordAt_slice 0 hsl hwpos).trans hedge.1
      simpa using h0
    have hWlast : wordAt s (i + w.length - 1) = true := by
      have h2 := (wordAt_slice (w.length - 1) hsl (by omega)).trans hedge.2
      have he : i + (w.length - 1) = i + w.length - 1 := by omega
      rwa [he] at h2
    refine ⟨i, ?_, by rw [matchAt, beq_iff_eq]; exact hsl, ?_⟩
    · rw [boundaryAt, hW0, bne_iff_ne]
      have hprev : ((i != 0) && wordAt s (i - 1)) = false := by
        rcases hleft with h0 | ⟨c, hc, hnw⟩
        · subst h0; simp
        · have hwp : wordAt s (i - 1) = false := by
            rw [wordAt, hc]
            simpa using hnw
          simp [hwp]
      rw [hprev]
      exact Bool.false_ne_true
    · rw [boundaryAt, bne_iff_ne]
      have hafter : wordAt s (i + w.length) = false := by
        rcases hright with h0 | ⟨c, hc, hnw⟩
        · rw [wordAt, h0]; rfl
        · rw [wordAt, hc]; simpa using hnw
      have hne0 : ((i + w.length) != 0) = true := by rw [bne_iff_ne]; omega
      rw [hne0, Bool.true_and, hWlast, hafter]
      decide

/-- C2 counterexample: with blocked list `["bad"]` and text `ba.d xbadx`,
the term occurs in the text only inside the larger word `xbadx`, never as a
standalone word, yet the filter answers true, because deleting punctuation
turns `ba.d` into a standalone `bad`. -/
theorem c2_counterexample :
    (['b', 'a', 'd'] <:+: ['b', 'a', '.', 'd', ' ', 'x', 'b', 'a', 'd', 'x']) ∧
      ¬ StandaloneOccIn ['b', 'a', 'd'] ['b', 'a', '.', 'd', ' ', 'x', 'b', 'a', 'd', 'x'] ∧
      containsBadWords [['b', 'a', 'd']] ['b', 'a', '.', 'd', ' ', 'x', 'b', 'a', 'd', 'x'] =
        true := by
  refine ⟨by decide, ?_, by decide⟩
  rintro ⟨i, hsl, hleft, hright⟩
  have hlen := slice_length hsl (by decide)
  simp only [List.length_cons, List.length_nil] at hlen
  have hi : i ≤ 7 := by omega
  interval_cases i <;>
    first
      | exact absurd hsl (by decide)
      | (rcases hleft with h0 | ⟨c, hc, hnw⟩
         · exact absurd h0 (by decide)
         · rw [show (['b', 'a', '.', 'd', ' ', 'x', 'b', 'a', 'd', 'x'] :
              List Char)[5]? = some 'x' from by decide] at hc
           injection hc with hc
           subst hc
           exact absurd hnw (by decide))

/-- C2 as amended, restricted to blocked-term lists whose normalised terms
are free of regex metacharacters (so each built regex is the literal
whole-word matcher) and begin and end with word characters: a
case-insensitive standalone occurrence of a normalised term in the text
makes the filter answer true; and when no normalised term has a standalone
occurrence in the lowered text or in its punctuation-stripped variant, the
filter answers false. -/
theorem c2_standalone_words (badWords : List (List Char)) (t : List Char) :
    ((∀ e ∈ badWords, plainTerm (normTerm e) = true) →
      ∀ e ∈ badWords, normTerm e ≠ [] → wordEdged (normTerm e) = true →
      StandaloneOccIn (normTerm e) (toLowerStr t) → containsBadWords badWords t = true) ∧
    ((∀ e ∈ badWords, plainTerm (normTerm e) = true) →
      (∀ e ∈ badWords, wordEdged (normTerm e) = true) →
      (∀ e ∈ badWords, ¬ StandaloneOccIn (normTerm e) (toLowerStr t) ∧
        ¬ StandaloneOccIn (normTerm e) (cleanOf (toLowerStr t))) →
      containsBadWords badWords t = false) := by
  constructor
  · intro hplain e he hn hedge hocc
    rw [containsBadWords_iff]
    have hww := (wholeWordMatch_iff_standalone hn hedge).mpr hocc
    refine ⟨?_, e, he, hn, Or.inl ?_⟩
    · obtain ⟨i, hsl, -, -⟩ := hocc
      have hlen := slice_length hsl hn
      have hpos := List.length_pos.mpr hn
      intro ht
      subst ht
      simp only [toLowerStr, List.map_nil, List.length_nil] at hlen
      omega
    · rw [jsWordTest_plain (hplain e he)]
      exact (literalWordScan_iff _ _).mpr hww
  · intro hplain hedges hnone
    cases hcb : containsBadWords badWords t
    · rfl
    · exfalso
      rw [containsBadWords_iff] at hcb
      obtain ⟨-, e, he, hn, hor⟩ := hcb
      rcases hor with h | h
      · rw [jsWordTest_plain (hplain e he)] at h
        exact (hnone e he).1
          ((wholeWordMatch_iff_standalone hn (hedges e he)).mp ((literalWordScan_iff _ _).mp h))
      · rw [jsWordTest_plain (hplain e he)] at h
        exact (hnone e he).2
          ((wholeWordMatch_iff_standalone hn (hedges e he)).mp ((literalWordScan_iff _ _).mp h))

theorem c2_witness :
    (['b', 'a', 'd'] ∈ [['b', 'a', 'd']]) ∧
      containsBadWords [['b', 'a', 'd']] ['a', ' ', 'b', 'a', 'd', ' ', 'd', 'a', 'y'] =
        true :=
  ⟨by decide,
    (c2_standalone_words [['b', 'a', 'd']] ['a', ' ', 'b', 'a', 'd', ' ', 'd', 'a', 'y']).1
      (by decide) ['b', 'a', 'd'] (by decide) (by decide) (by decide)
      ⟨2, by decide, Or.inr ⟨' ', by decide, by decide⟩, Or.inr ⟨' ', by decide, by decide⟩⟩⟩

end Treble
